import Mathlib

/-!
Shallow embedding of the `basileus` authorization library (Rust).

Conventions of the embedding:
* Rust `String` / `&str` ↦ `List Char` (abbreviated `Str`), so that the
  whitespace-splitting parser can be reasoned about by structural induction.
* `HashSet<String>` ↦ `Finset Str` (Rust `PartialEq` on `Perm` is set equality).
* `HashMap<K, V>` ↦ association list `List (K × V)` with insert-overwrites
  semantics (`insertA` removes any previous binding for the key).
* `SystemTime` / `Instant` ↦ `Nat` (seconds); `SystemTime::duration_since`
  fails when the argument is later than `self`, modelled by `durationSince`.
* async SQLite state ↦ explicit `PermState` record threaded through the
  operations; fallible operations return `Except`.
* external collaborators (Argon2 password verification, SHA-256 + base64url)
  are taken as function parameters.
-/

abbrev Str := List Char

/-- `user.rs`: `pub const ROOT_USER: &str = "root";` -/
def ROOT_USER : Str := "root".data

/-! ### Whitespace splitting (Rust `str::split_whitespace`)

Splits on whitespace and never yields empty tokens.  Written with an
accumulator so the definition is structurally recursive. -/

def splitWSAux : Str → Str → List Str
  | [], cur => if cur = [] then [] else [cur.reverse]
  | c :: rest, cur =>
    if c.isWhitespace then
      if cur = [] then splitWSAux rest []
      else cur.reverse :: splitWSAux rest []
    else splitWSAux rest (c :: cur)

def splitWhitespace (s : Str) : List Str := splitWSAux s []

/-- `perm.rs`, `ToString for Perm`: each group name followed by one space. -/
def serializeGroups (l : List Str) : Str := l.foldr (fun g acc => g ++ ' ' :: acc) []

/-! ### The permission algebra (`perm.rs`) -/

/-- `perm.rs`: `enum Perm { Root, Group(HashSet<String>) }`. -/
inductive Perm
  | root
  | group (g : Finset Str)
deriving DecidableEq

/-- `Perm::is_root`. -/
def Perm.is_root : Perm → Bool
  | .root => true
  | _ => false

/-- `Perm::grps` (for `Root` a static empty set is returned). -/
def Perm.grps : Perm → Finset Str
  | .root => ∅
  | .group g => g

/-- `Perm::grp_cnt`. -/
def Perm.grp_cnt : Perm → Nat
  | .root => 0
  | .group g => g.card

/-- `Perm::inherit`: root permission is never inherited from `from`. -/
def Perm.inherit : Perm → Perm → Perm
  | .root, _ => .root
  | .group l, .root => .group l
  | .group l, .group r => .group (l ∪ r)

/-- `Add for Perm`. -/
def Perm.add : Perm → Perm → Perm
  | .group l, .group r => .group (l ∪ r)
  | _, _ => .root

/-- `Sub for Perm`. -/
def Perm.sub : Perm → Perm → Perm
  | _, .root => .group ∅
  | .root, .group _ => .root
  | .group l, .group r => .group (l \ r)

/-- `Mul for Perm`. -/
def Perm.mul : Perm → Perm → Perm
  | .root, .root => .root
  | .root, .group r => .group r
  | .group l, .root => .group l
  | .group l, .group r => .group (l ∩ r)

/-- `PartialOrd for Perm::partial_cmp`, exactly as written in the source:
the final `Group`/`Group` branch answers `Greater` whenever the sets are
neither equal nor in the subset relation. -/
def Perm.partialCmp : Perm → Perm → Option Ordering
  | .root, .root => some .eq
  | .root, .group _ => some .gt
  | .group _, .root => some .lt
  | .group l, .group r =>
    if l = r then some .eq
    else if l ⊆ r then some .lt
    else some .gt

/-- Rust `a >= b` derived from `PartialOrd`: true iff
`partial_cmp(a, b)` is `Some(Greater)` or `Some(Equal)`. -/
def Perm.ge (a b : Perm) : Bool :=
  match a.partialCmp b with
  | some .gt => true
  | some .eq => true
  | _ => false

/-- `FromStr for Perm`: split on whitespace, collect into a set; if the
reserved name `root` occurs, the result is `Perm::Root`.  The Rust error
type is `Infallible`, so the embedding is a total function. -/
def Perm.fromStr (s : Str) : Perm :=
  let grp : Finset Str := (splitWhitespace s).toFinset
  if ROOT_USER ∈ grp then .root else .group grp

/-- Canonical enumeration of a `Finset Str` (the Rust `HashSet` iteration
order is arbitrary; the embedding picks the lexicographically sorted one). -/
def msort (s : Multiset Str) : List Str :=
  Quot.liftOn s (fun l => l.insertionSort (· ≤ ·))
    (fun _ _ h => List.eq_of_perm_of_sorted
      ((List.perm_insertionSort _ _).trans (h.trans (List.perm_insertionSort _ _).symm))
      (List.sorted_insertionSort _ _) (List.sorted_insertionSort _ _))

/-- `ToString for Perm`: `Root` prints as `root`; a group set prints as
every group name followed by a space. -/
def Perm.toString : Perm → Str
  | .root => ROOT_USER
  | .group g => serializeGroups (msort g.val)

/-! ### Persistent state backing the permission algebra

The SQLite database holds a `user` table and a `perm` table with one `grp`
text column per user (a trigger guarantees a row exists for every user).
The embedding keeps the set of existing users and the `grp` column as a
total function from user names to stored strings. -/

structure PermState where
  users : List Str
  grp : Str → Str

/-- `user.rs`: `exist_user`. -/
def exist_user (st : PermState) (u : Str) : Bool := u ∈ st.users

inductive GetPermError
  | userNotExist (u : Str)
deriving DecidableEq

inductive SetPermError
  | userNotExist (u : Str)
deriving DecidableEq

inductive RevokePermError
  | userNotExist (u : Str)
  | getPerm (e : GetPermError)
  | setPerm (e : SetPermError)
deriving DecidableEq

inductive CheckPermError
  | userNotExist (u : Str)
  | getDirectPerm (e : GetPermError)
deriving DecidableEq

/-- `perm.rs`: `get_direct_perm`.  The root user always has `Perm::Root`;
otherwise the stored `grp` string is parsed and the user's own name is
added as a group. -/
def get_direct_perm (st : PermState) (u : Str) : Except GetPermError Perm :=
  if u = ROOT_USER then .ok .root
  else if ¬ exist_user st u then .error (.userNotExist u)
  else .ok (Perm.add (Perm.fromStr (st.grp u)) (.group {u}))

/-- `perm.rs`: `set_perm` stores `(perm - Perm::Group({user})).to_string()`
into the user's `grp` column. -/
def set_perm (st : PermState) (u : Str) (p : Perm) : Except SetPermError PermState :=
  if ¬ exist_user st u then .error (.userNotExist u)
  else .ok { st with
    grp := fun v => if v = u then (Perm.sub p (.group {u})).toString else st.grp v }

/-- `perm.rs`: `revoke_perm` = read current direct permission, subtract,
write back; absent permissions are not an error. -/
def revoke_perm (st : PermState) (u : Str) (p : Perm) : Except RevokePermError PermState :=
  if ¬ exist_user st u then .error (.userNotExist u)
  else
    match get_direct_perm st u with
    | .error e => .error (.getPerm e)
    | .ok prev =>
      match set_perm st u (Perm.sub prev p) with
      | .error e => .error (.setPerm e)
      | .ok st1 => .ok st1

/-- One pass of the fixed-point loop in `get_all_perm`: fold `inherit` of
the direct permission of every group over the current permission.  The
`HashSet` iteration order is modelled by the sorted enumeration. -/
def getAllStep (st : PermState) (perm : Perm) : Except GetPermError Perm :=
  (msort perm.grps.val).foldlM
    (fun parent g => (get_direct_perm st g).map (fun n => parent.inherit n)) perm

/-- The `loop { ... }` of `get_all_perm`: iterate `getAllStep` until the
group count stops growing.  The Rust loop terminates because the count
strictly grows while bounded by the finitely many user rows; the embedding
makes the iteration count explicit with a fuel argument that the caller
sizes so that it is never exhausted on terminating runs. -/
def getAllLoop (st : PermState) : Nat → Perm → Except GetPermError Perm
  | 0, perm => .ok perm
  | fuel + 1, perm =>
    match getAllStep st perm with
    | .error e => .error e
    | .ok parent =>
      if parent.grp_cnt = perm.grp_cnt then .ok parent
      else getAllLoop st fuel parent

/-- `perm.rs`: `get_all_perm`. -/
def get_all_perm (st : PermState) (u : Str) : Except GetPermError Perm :=
  match get_direct_perm st u with
  | .error e => .error e
  | .ok perm =>
    if perm.is_root then .ok .root
    else getAllLoop st (st.users.length + 1) perm

/-- `perm.rs`: `check_perm`.  The root user always passes; otherwise the
direct permission is compared with `>=` first, then the full permission. -/
def check_perm (st : PermState) (u : Str) (req : Perm) : Except CheckPermError Bool :=
  if u = ROOT_USER then .ok true
  else if ¬ exist_user st u then .error (.userNotExist u)
  else
    match get_direct_perm st u with
    | .error e => .error (.getDirectPerm e)
    | .ok perm =>
      if Perm.ge perm req then .ok true
      else
        match get_all_perm st u with
        | .error e => .error (.getDirectPerm e)
        | .ok perm => .ok (Perm.ge perm req)

/-! ### Association-list model of `HashMap` -/

def lookupA {β : Type} : List (Str × β) → Str → Option β
  | [], _ => none
  | (k, v) :: rest, key => if k = key then some v else lookupA rest key

/-- `HashMap::remove` (the map part): drop the binding for `key`. -/
def eraseA {β : Type} (l : List (Str × β)) (key : Str) : List (Str × β) :=
  l.filter (fun e => decide (¬ e.1 = key))

/-- `HashMap::insert`: overwrite any previous binding for `key`. -/
def insertA {β : Type} (l : List (Str × β)) (key : Str) (v : β) : List (Str × β) :=
  (key, v) :: eraseA l key

/-! ### The session token store (`token.rs`)

`TokenModule` holds `HashMap<String, (String, SystemTime)>` from token to
(user, issuance time). -/

abbrev TokenStore := List (Str × (Str × Nat))

/-- `SystemTime::duration_since`: fails when `earlier` is later than `now`. -/
def durationSince (now earlier : Nat) : Option Nat :=
  if earlier ≤ now then some (now - earlier) else none

/-- `token.rs`: `issue_token`.  The random token and the current time are
parameters of the embedding; returns the token and the updated store. -/
def issue_token (st : TokenStore) (user : Str) (tok : Str) (now : Nat) : Str × TokenStore :=
  (tok, insertA st tok (user, now))

/-- `token.rs`: `invalidate_token`. -/
def invalidate_token (st : TokenStore) (tok : Str) : TokenStore :=
  eraseA st tok

/-- `token.rs`: `invalidate_user_token`: retain entries of other users. -/
def invalidate_user_token (st : TokenStore) (user : Str) : TokenStore :=
  st.filter (fun e => decide (¬ e.2.1 = user))

/-- `token.rs`: `expire_token` retains exactly the entries for which
`SystemTime::now().duration_since(time).is_ok_and(|d| d < duration)`. -/
def expire_token (st : TokenStore) (duration : Nat) (now : Nat) : TokenStore :=
  st.filter (fun e =>
    match durationSince now e.2.2 with
    | some d => decide (d < duration)
    | none => false)

/-- `token.rs`: `verify_token`: look the token up, return its user. -/
def verify_token (st : TokenStore) (tok : Str) : Option Str :=
  (lookupA st tok).map (fun p => p.1)

/-- `verify_token` takes `&self` (a shared borrow): as a state transformer
it returns the store unchanged next to the result. -/
def verify_token_step (st : TokenStore) (tok : Str) : Option Str × TokenStore :=
  (verify_token st tok, st)

/-! ### The PKCE exchange (`pkce.rs`) -/

/-- `pkce.rs`: `enum CodeChallengeMethod { S256, Plain }`. -/
inductive CodeChallengeMethod
  | s256
  | plain
deriving DecidableEq

/-- `Display for CodeChallengeMethod`. -/
def CodeChallengeMethod.display : CodeChallengeMethod → Str
  | .s256 => "S256".data
  | .plain => "plain".data

/-- `pkce.rs`: `struct CodeChallenge`. -/
structure CodeChallenge where
  challenge : Str
  method : CodeChallengeMethod
deriving DecidableEq

/-- `Display for CodeChallenge`: `"{method}:{challenge}"`. -/
def CodeChallenge.display (cc : CodeChallenge) : Str :=
  cc.method.display ++ ':' :: cc.challenge

/-- `CodeChallenge::verify`.  `hashEnc` is the external
`base64url ∘ SHA-256` collaborator. -/
def CodeChallenge.verify (hashEnc : Str → Str) (cc : CodeChallenge) (verifier : Str) : Bool :=
  match cc.method with
  | .s256 => decide (cc.challenge = hashEnc verifier)
  | .plain => decide (cc.challenge = verifier)

/-- `pkce.rs`: `struct Pkce` (a pending authorization). -/
structure Pkce where
  user : Str
  code_challenge : CodeChallenge
  begin : Nat

/-- `Pkce::valid`: `begin.elapsed().as_secs() <= 600`. -/
def Pkce.valid (p : Pkce) (now : Nat) : Bool := decide (now - p.begin ≤ 600)

/-- `err.rs` / `pkce.rs`: errors of `verify_pass` (the Argon2 and SQL
payloads are opaque to this embedding). -/
inductive VerifyPassError
  | argon2
  | sql
  | userNotExist (u : Str)
  | passUndefined (u : Str)
deriving DecidableEq

inductive PkceAuthError
  | insecurePlain
  | unauthorized
  | verifyPass (e : VerifyPassError)
deriving DecidableEq

inductive PkceTokenError
  | invalidCode
  | expiredCode
  | invalidVerifier
deriving DecidableEq

/-- The mutable state touched by the PKCE exchange: the pending map of
`PkceModule` and the token store it mints sessions into. -/
structure PkceState where
  pending : List (Str × Pkce)
  tokens : TokenStore

/-- `format!("{user}, {code_challenge}")`, the digest input of the
authorization code. -/
def authCodeInput (user : Str) (cc : CodeChallenge) : Str :=
  user ++ ", ".data ++ cc.display

/-- `pkce.rs`: `pkce_auth_req`.  `allowPlain` is `config.allow_plain`;
`verifyPass` is the external password collaborator and the third component
of the result counts how many times it was invoked; `hashEnc` is the
external `base64url ∘ SHA-256`. -/
def pkce_auth_req (allowPlain : Bool) (verifyPass : Str → Str → Except VerifyPassError Bool)
    (hashEnc : Str → Str) (st : PkceState) (user pass : Str) (cc : CodeChallenge)
    (now : Nat) : Except PkceAuthError Str × PkceState × Nat :=
  if cc.method = .plain ∧ ¬ allowPlain then (.error .insecurePlain, st, 0)
  else
    match verifyPass user pass with
    | .error e => (.error (.verifyPass e), st, 1)
    | .ok false => (.error .unauthorized, st, 1)
    | .ok true =>
      let auth_code := hashEnc (authCodeInput user cc)
      (.ok auth_code,
        { st with pending := insertA st.pending auth_code ⟨user, cc, now⟩ }, 1)

/-- `pkce.rs`: `pkce_token_req`.  The pending entry is removed first; only
then are validity and the verifier checked.  `freshTok` stands for the
random token `issue_token` generates on success. -/
def pkce_token_req (hashEnc : Str → Str) (st : PkceState) (code verifier : Str)
    (now : Nat) (freshTok : Str) : Except PkceTokenError Str × PkceState :=
  match lookupA st.pending code with
  | none => (.error .invalidCode, st)
  | some pkce =>
    let st1 : PkceState := { st with pending := eraseA st.pending code }
    if ¬ pkce.valid now then (.error .expiredCode, st1)
    else if ¬ pkce.code_challenge.verify hashEnc verifier then (.error .invalidVerifier, st1)
    else
      let r := issue_token st1.tokens pkce.user freshTok now
      (.ok r.1, { st1 with tokens := r.2 })

/-! ### Lemmas about the whitespace splitter and the serializer -/

lemma splitWSAux_wf (s : Str) :
    ∀ cur, (∀ c ∈ cur, c.isWhitespace = false) →
      ∀ t ∈ splitWSAux s cur, t ≠ [] ∧ ∀ c ∈ t, c.isWhitespace = false := by
  induction s with
  | nil =>
    intro cur hcur t ht
    by_cases hc : cur = []
    · simp [splitWSAux, hc] at ht
    · simp [splitWSAux, hc] at ht
      subst ht
      refine ⟨by simpa using hc, ?_⟩
      intro c hc'
      exact hcur c (List.mem_reverse.mp hc')
  | cons c rest ih =>
    intro cur hcur t ht
    by_cases hw : c.isWhitespace
    · by_cases hc : cur = []
      · simp [splitWSAux, hw, hc] at ht
        exact ih [] (by simp) t ht
      · simp [splitWSAux, hw, hc] at ht
        rcases ht with ht | ht
        · subst ht
          refine ⟨by simpa using hc, ?_⟩
          intro x hx
          exact hcur x (List.mem_reverse.mp hx)
        · exact ih [] (by simp) t ht
    · simp [splitWSAux, hw] at ht
      refine ih (c :: cur) ?_ t ht
      intro x hx
      rcases List.mem_cons.mp hx with h | h
      · subst h; simpa using hw
      · exact hcur x h

/-- Every token produced by `splitWhitespace` is nonempty and free of
whitespace characters. -/
lemma splitWhitespace_wf (s : Str) :
    ∀ t ∈ splitWhitespace s, t ≠ [] ∧ ∀ c ∈ t, c.isWhitespace = false :=
  splitWSAux_wf s [] (by simp)

lemma splitWSAux_append (t : Str) (ht : ∀ c ∈ t, c.isWhitespace = false) :
    ∀ r cur, splitWSAux (t ++ r) cur = splitWSAux r (t.reverse ++ cur) := by
  induction t with
  | nil => intro r cur; simp
  | cons c t' ih =>
    intro r cur
    have hc : c.isWhitespace = false := ht c (by simp)
    have ht' : ∀ x ∈ t', x.isWhitespace = false := fun x hx => ht x (by simp [hx])
    have h1 : splitWSAux ((c :: t') ++ r) cur = splitWSAux (t' ++ r) (c :: cur) := by
      simp [splitWSAux, hc]
    rw [h1, ih ht' r (c :: cur)]
    simp

lemma serializeGroups_cons (t : Str) (l : List Str) :
    serializeGroups (t :: l) = t ++ ' ' :: serializeGroups l := rfl

/-- Round trip at the token-list level: serializing nonempty whitespace-free
tokens and splitting again recovers the same list. -/
lemma splitWhitespace_serializeGroups (l : List Str)
    (h : ∀ t ∈ l, t ≠ [] ∧ ∀ c ∈ t, c.isWhitespace = false) :
    splitWhitespace (serializeGroups l) = l := by
  induction l with
  | nil => rfl
  | cons t ts ih =>
    obtain ⟨ht1, ht2⟩ := h t (by simp)
    have hws : (' ' : Char).isWhitespace = true := rfl
    have hrev : t.reverse ≠ ([] : Str) := by simpa using ht1
    show splitWSAux (serializeGroups (t :: ts)) [] = t :: ts
    rw [serializeGroups_cons, splitWSAux_append t ht2]
    simp [splitWSAux, hws, hrev]
    exact ih (fun x hx => h x (by simp [hx]))

/-! ### Lemmas about `msort` and parsing -/

lemma mem_msort {s : Multiset Str} {t : Str} : t ∈ msort s ↔ t ∈ s := by
  induction s using Quot.ind with
  | _ l => exact (List.mem_insertionSort _).trans Iff.rfl

lemma msort_wf (g : Finset Str)
    (h : ∀ t ∈ g, t ≠ [] ∧ ∀ c ∈ t, c.isWhitespace = false) :
    ∀ t ∈ msort g.val, t ≠ [] ∧ ∀ c ∈ t, c.isWhitespace = false :=
  fun t ht => h t (mem_msort.mp ht)

/-- Round trip at the `Perm` level, for a group set of nonempty,
whitespace-free tokens none of which is the reserved name. -/
lemma fromStr_toString_group (g : Finset Str)
    (h : ∀ t ∈ g, t ≠ [] ∧ ∀ c ∈ t, c.isWhitespace = false)
    (hr : ROOT_USER ∉ g) :
    Perm.fromStr (Perm.toString (Perm.group g)) = Perm.group g := by
  have hsplit : splitWhitespace (serializeGroups (msort g.val)) = msort g.val :=
    splitWhitespace_serializeGroups _ (msort_wf g h)
  have hfin : (msort g.val).toFinset = g := by
    ext a
    simp [List.mem_toFinset, mem_msort]
  simp only [Perm.toString, Perm.fromStr, hsplit, hfin]
  simp [hr]

lemma fromStr_toString_root : Perm.fromStr (Perm.toString Perm.root) = Perm.root := by decide

/-- A string that parses to a group set yields only nonempty,
whitespace-free tokens, and never the reserved name. -/
lemma fromStr_group_wf (s : Str) (g : Finset Str)
    (h : Perm.fromStr s = Perm.group g) :
    (∀ t ∈ g, t ≠ [] ∧ ∀ c ∈ t, c.isWhitespace = false) ∧ ROOT_USER ∉ g := by
  by_cases hr : ROOT_USER ∈ (splitWhitespace s).toFinset
  · simp [Perm.fromStr, hr] at h
  · simp only [Perm.fromStr, hr, if_false] at h
    obtain rfl : (splitWhitespace s).toFinset = g := by
      simpa using h
    refine ⟨?_, hr⟩
    intro t ht
    exact splitWhitespace_wf s t (List.mem_toFinset.mp ht)

/-! ### Lemmas about the association-list map -/

lemma lookupA_insertA {β : Type} (l : List (Str × β)) (k : Str) (v : β) :
    lookupA (insertA l k v) k = some v := by
  simp [insertA, lookupA]

lemma lookupA_eraseA {β : Type} (l : List (Str × β)) (k : Str) :
    lookupA (eraseA l k) k = none := by
  induction l with
  | nil => rfl
  | cons e rest ih =>
    by_cases h : e.1 = k
    · simpa [eraseA, List.filter_cons, h] using ih
    · simpa [eraseA, List.filter_cons, h, lookupA] using ih

lemma mem_expire_token (st : TokenStore) (d now : Nat) (e : Str × (Str × Nat)) :
    e ∈ expire_token st d now ↔ e ∈ st ∧ e.2.2 ≤ now ∧ now - e.2.2 < d := by
  by_cases h : e.2.2 ≤ now
  · simp [expire_token, List.mem_filter, durationSince, h]
  · simp [expire_token, List.mem_filter, durationSince, h]

instance {ε α : Type} [DecidableEq ε] [DecidableEq α] : DecidableEq (Except ε α) := fun a b =>
  match a, b with
  | .error e, .error f =>
    if h : e = f then .isTrue (congrArg Except.error h)
    else .isFalse (fun hh => h (Except.error.inj hh))
  | .ok x, .ok y =>
    if h : x = y then .isTrue (congrArg Except.ok h)
    else .isFalse (fun hh => h (Except.ok.inj hh))
  | .error _, .ok _ => .isFalse (fun hh => Except.noConfusion hh)
  | .ok _, .error _ => .isFalse (fun hh => Except.noConfusion hh)

/-! ### Concrete instances used in evaluations -/

def aliceS : Str := "alice".data

def deployS : Str := "deploy".data

def tokenS : Str := "tok".data

/-- One-user database: `alice` exists and her stored `grp` column is the
empty string, so her direct permission set is exactly `{alice}`. -/
def stC : PermState := ⟨[aliceS], fun _ => []⟩

/-! ### Claims -/

/-- Claim C1: the spec demands that `check(u, R)` return true iff the held
set is a superset of `R`.  The code violates this: with held set `{alice}`
and required set `{deploy}` (which is not contained in the held set),
`check_perm` returns `Ok(true)`, because `partial_cmp` answers `Greater`
for the incomparable pair.  This theorem evaluates the code at that
failing input. -/
theorem c1_check_true_without_superset :
    check_perm stC aliceS (Perm.group {deployS}) = Except.ok true
  ∧ get_direct_perm stC aliceS = Except.ok (Perm.group {aliceS})
  ∧ get_all_perm stC aliceS = Except.ok (Perm.group {aliceS})
  ∧ deployS ∉ ({aliceS} : Finset Str) := by decide

/-- Claim C2: the spec demands that incomparable permission sets compare
to no definite order.  The code violates this: `{alice}` and `{deploy}`
are incomparable (neither is a subset of the other) yet `partial_cmp`
answers `Some(Greater)`; indeed `partial_cmp` never answers `None` at
all. -/
theorem c2_incomparable_collapses_to_greater :
    (¬ ({aliceS} : Finset Str) ⊆ {deployS})
  ∧ (¬ ({deployS} : Finset Str) ⊆ {aliceS})
  ∧ Perm.partialCmp (Perm.group {aliceS}) (Perm.group {deployS}) = some Ordering.gt
  ∧ ∀ a b : Perm, Perm.partialCmp a b ≠ none := by
  refine ⟨by decide, by decide, by decide, ?_⟩
  intro a b
  cases a <;> cases b <;> simp [Perm.partialCmp]
  split_ifs <;> simp

/-- Claim C3: `token_req` removes the pending entry for `code` before any
validity or verifier check, so a second `token_req` with the same `code`
(after any first attempt, whatever its outcome) fails with `InvalidCode`,
and a `token_req` for an absent code fails with `InvalidCode`. -/
theorem c3_token_req_consumes_code (hashEnc : Str → Str) (st : PkceState)
    (code v1 v2 tk1 tk2 : Str) (n1 n2 : Nat) :
    (pkce_token_req hashEnc (pkce_token_req hashEnc st code v1 n1 tk1).2 code v2 n2 tk2).1
      = Except.error PkceTokenError.invalidCode
  ∧ (lookupA st.pending code = none →
      (pkce_token_req hashEnc st code v1 n1 tk1).1 = Except.error PkceTokenError.invalidCode) := by
  constructor
  · cases h : lookupA st.pending code with
    | none => simp [pkce_token_req, h]
    | some pk =>
      have hp : (pkce_token_req hashEnc st code v1 n1 tk1).2.pending = eraseA st.pending code := by
        simp only [pkce_token_req, h]
        split_ifs <;> rfl
      generalize hst2 : (pkce_token_req hashEnc st code v1 n1 tk1).2 = st2
      rw [hst2] at hp
      simp [pkce_token_req, hp, lookupA_eraseA]
  · intro h
    simp [pkce_token_req, h]

/-- Claim C3 witness: on the empty pending map, redeeming any code fails
with `InvalidCode`. -/
theorem c3_token_req_consumes_code_witness :
    (pkce_token_req (fun s => s) ⟨[], []⟩ tokenS aliceS 0 tokenS).1
      = Except.error PkceTokenError.invalidCode :=
  (c3_token_req_consumes_code (fun s => s) ⟨[], []⟩ tokenS aliceS aliceS tokenS tokenS 0 0).2 rfl

/-- Claim C4: with `allow_plain` disabled, an `auth_req` whose challenge
method is `plain` fails with the insecure-method error, leaves the state
untouched, and never invokes the password-verification collaborator (the
invocation counter of the embedding stays `0`), for every possible
collaborator. -/
theorem c4_plain_disabled_no_password_check
    (verifyPass : Str → Str → Except VerifyPassError Bool) (hashEnc : Str → Str)
    (st : PkceState) (user pass chal : Str) (now : Nat) :
    pkce_auth_req false verifyPass hashEnc st user pass ⟨chal, .plain⟩ now
      = (Except.error PkceAuthError.insecurePlain, st, 0) := by
  simp [pkce_auth_req]

/-- Claim C5 counterexample: the claim says an entry whose age equals `d`
is not removed, but `expire(5)` at `now = 5` removes the entry issued at
time `0` (age exactly `5`). -/
theorem c5_expire_boundary_counterexample :
    (tokenS, (aliceS, 0)) ∉ expire_token [(tokenS, (aliceS, 0))] 5 5
  ∧ (5 : Nat) - 0 ≤ 5 := by decide

/-- Claim C5 (amended): for stores whose issuance timestamps are not in
the future, `expire(d)` keeps exactly the entries of age strictly less
than `d` — i.e. it removes those of age at least `d`, the boundary `age
= d` included. -/
theorem c5_expire_exact (st : TokenStore) (d now : Nat)
    (h : ∀ e ∈ st, e.2.2 ≤ now) (e : Str × (Str × Nat)) :
    e ∈ expire_token st d now ↔ e ∈ st ∧ now - e.2.2 < d := by
  rw [mem_expire_token]
  constructor
  · rintro ⟨h1, _, h3⟩
    exact ⟨h1, h3⟩
  · rintro ⟨h1, h3⟩
    exact ⟨h1, h e h1, h3⟩

/-- Claim C5 witness: an entry of age `2 < 3` survives `expire(3)`. -/
theorem c5_expire_exact_witness :
    (tokenS, (aliceS, 3)) ∈ expire_token [(tokenS, (aliceS, 3))] 3 5 :=
  (c5_expire_exact [(tokenS, (aliceS, 3))] 3 5 (by decide) (tokenS, (aliceS, 3))).mpr
    (by decide)

/-- Claim C6 counterexample: `get_direct_perm` always re-adds the user's
own name as a group, so revoking `{alice}` from `alice` still leaves
`alice` in the returned set, although `alice ∈ P`. -/
theorem c6_revoke_self_counterexample :
    (revoke_perm stC aliceS (Perm.group {aliceS})).map (fun st1 => get_direct_perm st1 aliceS)
      = Except.ok (Except.ok (Perm.group {aliceS}))
  ∧ aliceS ∈ (Perm.group {aliceS}).grps := by decide

/-- Claim C6 (amended): for every existing user `u` and every permission
set `P` that does not contain `u`'s own name, after a successful
`revoke(u, P)` the set returned by `get(u)` contains no element of `P`
(revoking never-held elements succeeds and is not an error). -/
theorem c6_revoke_disjoint (st st1 : PermState) (u : Str) (p : Perm)
    (h1 : revoke_perm st u p = Except.ok st1) (h2 : u ∉ p.grps) :
    ∃ q, get_direct_perm st1 u = Except.ok q ∧ q.grps ∩ p.grps = ∅ := by
  by_cases hu : u = ROOT_USER
  · refine ⟨Perm.root, ?_, by simp [Perm.grps]⟩
    simp [get_direct_perm, hu]
  · cases hex : exist_user st u with
    | false =>
      rw [revoke_perm] at h1
      simp [hex] at h1
    | true =>
      have hmem : u ∈ st.users := by simpa [exist_user] using hex
      simp [revoke_perm, get_direct_perm, set_perm, hu, exist_user, hmem] at h1
      subst h1
      refine ⟨Perm.add (Perm.fromStr ((Perm.sub (Perm.sub
          (Perm.add (Perm.fromStr (st.grp u)) (Perm.group {u})) p)
          (Perm.group {u})).toString)) (Perm.group {u}), ?_, ?_⟩
      · simp [get_direct_perm, hu, exist_user, hmem]
      · cases p with
        | root => simp [Perm.grps]
        | group S =>
          have hu2 : u ∉ S := by simpa [Perm.grps] using h2
          cases hF : Perm.fromStr (st.grp u) with
          | root =>
            simp [Perm.add, Perm.sub, fromStr_toString_root, Perm.grps]
          | group T =>
            have hTwf := fromStr_group_wf (st.grp u) T hF
            simp only [Perm.add, Perm.sub]
            have hE : (((T ∪ {u}) \ S) \ {u} : Finset Str) ⊆ T := by
              intro a ha
              simp only [Finset.mem_sdiff, Finset.mem_union, Finset.mem_singleton] at ha
              rcases ha with ⟨⟨hTu | hau2, _⟩, hau⟩
              · exact hTu
              · exact absurd hau2 hau
            rw [fromStr_toString_group _ (fun t ht => hTwf.1 t (hE ht)) (fun hc => hTwf.2 (hE hc))]
            simp only [Perm.add, Perm.grps]
            ext a
            simp only [Finset.mem_inter, Finset.mem_union, Finset.mem_sdiff,
              Finset.mem_singleton, Finset.not_mem_empty, iff_false, not_and]
            rintro (⟨⟨_, hnS⟩, _⟩ | rfl)
            · exact hnS
            · exact hu2

/-- The state produced by revoking `{deploy}` from `alice` in `stC`. -/
def stA' : PermState :=
  { stC with grp := fun v =>
      if v = aliceS then
        (Perm.sub (Perm.sub (Perm.add (Perm.fromStr (stC.grp aliceS)) (Perm.group {aliceS}))
          (Perm.group {deployS})) (Perm.group {aliceS})).toString
      else stC.grp v }

/-- Claim C6 witness: revoking `{deploy}` from `alice` succeeds and the
resulting permission set of `alice` is disjoint from `{deploy}`. -/
theorem c6_revoke_disjoint_witness :
    ∃ q, get_direct_perm stA' aliceS = Except.ok q ∧ q.grps ∩ (Perm.group {deployS}).grps = ∅ :=
  c6_revoke_disjoint stC stA' aliceS (Perm.group {deployS}) rfl (by decide)

/-- Claim C7 counterexample: the round trip fails on the permission set
`{"root"}` — its serialization parses back to `Root`, not to the group
set containing the token `root`. -/
theorem c7_roundtrip_counterexample :
    Perm.fromStr (Perm.toString (Perm.group {ROOT_USER})) ≠ Perm.group {ROOT_USER} := by decide

/-- Claim C7 (amended): parsing is total by construction; the empty
string parses to the empty set; and `parse(serialize(S)) = S` holds for
`Root` and for every group set whose tokens are nonempty, whitespace-free
and distinct from the reserved name `root`. -/
theorem c7_roundtrip_amended (g : Finset Str)
    (h1 : ∀ t ∈ g, t ≠ [] ∧ ∀ c ∈ t, c.isWhitespace = false)
    (h2 : ROOT_USER ∉ g) :
    Perm.fromStr (Perm.toString (Perm.group g)) = Perm.group g
  ∧ Perm.fromStr (Perm.toString Perm.root) = Perm.root
  ∧ Perm.fromStr [] = Perm.group ∅ :=
  ⟨fromStr_toString_group g h1 h2, by decide, by decide⟩

/-- Claim C7 witness: the round trip at the concrete set `{alice}`. -/
theorem c7_roundtrip_amended_witness :
    Perm.fromStr (Perm.toString (Perm.group {aliceS})) = Perm.group {aliceS} :=
  (c7_roundtrip_amended {aliceS} (by decide) (by decide)).1

/-- Claim C8: issuing a token and immediately verifying it yields the
issuing user; after invalidating a token, verifying it yields `None`. -/
theorem c8_issue_verify_invalidate (st st2 : TokenStore) (u tok : Str) (now : Nat) :
    verify_token (issue_token st u tok now).2 (issue_token st u tok now).1 = some u
  ∧ verify_token (invalidate_token st2 tok) tok = none := by
  constructor
  · simp [issue_token, verify_token, lookupA_insertA]
  · simp [invalidate_token, verify_token, lookupA_eraseA]

/-- Claim C9: `verify` is a pure lookup — as a state transformer it
returns the store unchanged, and its answer for a stored token is the
owning user whatever the entry's issuance timestamp is (no expiry check:
there is no clock input to `verify_token` at all). -/
theorem c9_verify_pure_lookup (st : TokenStore) (tok : Str) :
    (verify_token_step st tok).2 = st
  ∧ ∀ u t, lookupA st tok = some (u, t) → (verify_token_step st tok).1 = some u := by
  refine ⟨rfl, ?_⟩
  intro u t h
  simp [verify_token_step, verify_token, h]

/-- Claim C9 witness: an arbitrarily old entry (issued at time `0`) is
still verified. -/
theorem c9_verify_pure_lookup_witness :
    (verify_token_step [(tokenS, (aliceS, 0))] tokenS).1 = some aliceS :=
  (c9_verify_pure_lookup [(tokenS, (aliceS, 0))] tokenS).2 aliceS 0 rfl

/-- Claim C10: any string in which `root` occurs as a whitespace-separated
token parses to the `Root` permission; no string parses to a group set
containing the token `root`; and `Root` compares greater than or equal to
every group set. -/
theorem c10_root_token_elevates (s : Str) (g : Finset Str) :
    (ROOT_USER ∈ splitWhitespace s → Perm.fromStr s = Perm.root)
  ∧ (Perm.fromStr s = Perm.group g → ROOT_USER ∉ g)
  ∧ Perm.ge Perm.root (Perm.group g) = true := by
  refine ⟨?_, ?_, rfl⟩
  · intro h
    simp [Perm.fromStr, List.mem_toFinset.mpr h]
  · intro h
    exact (fromStr_group_wf s g h).2

/-- Claim C10 witness: `"x root"` parses to `Root`; `"alice"` parses to a
group set not containing `root`. -/
theorem c10_root_token_elevates_witness :
    Perm.fromStr "x root".data = Perm.root ∧ ROOT_USER ∉ ({aliceS} : Finset Str) :=
  ⟨(c10_root_token_elevates "x root".data ∅).1 (by decide),
   (c10_root_token_elevates "alice".data {aliceS}).2.1 (by decide)⟩

